import Mathlib

/-!
Verification of the BPE tokenizer core in `src/bpe.py` of the
S11-telugu-bpe-tokenizer repository, as a shallow embedding.

Python strings become `String`/`List Char`, tuples of symbols become
`List String`, `dict`s (which are insertion ordered in Python) become
insertion-ordered association lists, `Counter` becomes an insertion-ordered
association list of counts, and code that can raise (`self.vocab[UNK]` on a
missing key) returns `Option`.  The training loop and the per-word merge
loop of `encode_word` are expressed with an explicit fuel argument so that
every definition is structurally recursive and kernel-evaluable; the fuel
passed by `train`/`encode_word` is one more than the total symbol count,
which is sufficient because every merging iteration strictly shrinks the
symbol count (proved below).
-/

namespace BPE

/-- `WORD_END` from bpe.py line 16. -/
def WORD_END : String := "</w>"

/-- `UNK` from bpe.py line 17. -/
def UNK : String := "<unk>"

/-- `PAD` from bpe.py line 18. -/
def PAD : String := "<pad>"

/-- `BOS` from bpe.py line 19. -/
def BOS : String := "<bos>"

/-- `EOS` from bpe.py line 20. -/
def EOS : String := "<eos>"

/-- Whitespace as matched by Python's `\s` and `str.strip()` on the ASCII
range: space, tab, newline, vertical tab, form feed, carriage return. -/
def isWs (c : Char) : Bool :=
  c = ' ' || c = '\t' || c = '\n' || c = '\x0b' || c = '\x0c' || c = '\r'

/-- Replace every maximal whitespace run by a single space, as
`re.sub(r"\s+", " ", text)` does.  The flag records whether the previous
character was whitespace (i.e. we are inside a run that already emitted
its space). -/
def subAux : Bool → List Char → List Char
  | _, [] => []
  | inRun, c :: r =>
    if isWs c then
      (if inRun then subAux true r else ' ' :: subAux true r)
    else c :: subAux false r

/-- Whitespace-run collapsing on a whole list, `re.sub(r"\s+", " ", ·)`. -/
def subWsRuns (l : List Char) : List Char := subAux false l

/-- Python `str.strip()`: drop whitespace from both ends. -/
def pyStrip (l : List Char) : List Char :=
  ((l.dropWhile isWs).reverse.dropWhile isWs).reverse

/-- `normalize` from bpe.py lines 22-25:
`re.sub(r"\s+", " ", text.strip())`. -/
def normalize (s : String) : String :=
  String.mk (subWsRuns (pyStrip s.data))

/-- Helper for `splitSpace`: prepend a character to the first chunk. -/
def consHead (c : Char) : List (List Char) → List (List Char)
  | [] => [[c]]
  | w :: ws => (c :: w) :: ws

/-- Python `str.split(" ")`: split at every single space, keeping empty
chunks; `"".split(" ") == [""]`. -/
def splitSpace : List Char → List (List Char)
  | [] => [[]]
  | c :: r => if c = ' ' then [] :: splitSpace r else consHead c (splitSpace r)

/-- One single-character symbol per character of the word,
`list(word)` in Python. -/
def charSyms (w : String) : List String :=
  w.data.map (fun c => String.mk [c])

/-- `word_to_symbols` from bpe.py lines 27-32: characters of the word plus
the end marker; just the end marker for the empty word. -/
def word_to_symbols (w : String) : List String :=
  if w = "" then [WORD_END] else charSyms w ++ [WORD_END]

/-- The adjacent symbol pairs of one word, `(word[i], word[i+1])` for
`i in range(len(word)-1)`. -/
def wordPairs (w : List String) : List (String × String) :=
  w.zip w.tail

/-- `pairs[(a, b)] += 1` on a `Counter` modelled as an insertion-ordered
association list: increment in place if the key is present, else append
the key with count 1 (Python dicts append new keys at the end). -/
def bumpPair (st : List ((String × String) × Nat)) (p : String × String) :
    List ((String × String) × Nat) :=
  if st.any (fun q => decide (q.1 = p)) then
    st.map (fun q => if q.1 = p then (q.1, q.2 + 1) else q)
  else st ++ [(p, 1)]

/-- `get_stats` from bpe.py lines 34-40: count adjacent symbol pairs across
the corpus, scanning words left to right and each word left to right, so
the association list is in first-encounter order. -/
def get_stats (tws : List (List String)) : List ((String × String) × Nat) :=
  tws.foldl (fun st w => (wordPairs w).foldl bumpPair st) []

/-- `stats.most_common(1)[0]` on a nonempty `Counter`: Python's
`heapq.nlargest(1, items, key=count)` is `max` over the items in insertion
order, which returns the first item attaining the maximal count.  Here:
the earlier element wins ties. -/
def mostCommon1 : List ((String × String) × Nat) → Option ((String × String) × Nat)
  | [] => none
  | x :: rest =>
    match mostCommon1 rest with
    | none => some x
    | some y => if y.2 > x.2 then some y else some x

/-- The inner loop of `merge_pair` (bpe.py lines 48-58): scan one word left
to right; when two adjacent symbols are exactly the pair, emit their
concatenation and advance by two, else emit the symbol and advance by one. -/
def mergeWord (a b : String) : List String → List String
  | x :: y :: rest =>
    if x = a ∧ y = b then (x ++ y) :: mergeWord a b rest
    else x :: mergeWord a b (y :: rest)
  | l => l

/-- `merge_pair` from bpe.py lines 42-59 (the compiled regex `pattern` on
line 45 is built but never used; the tuple scan is the actual behaviour). -/
def merge_pair (p : String × String) (tws : List (List String)) :
    List (List String) :=
  tws.map (mergeWord p.1 p.2)

/-- Lexicographic comparison of two characters by code point. -/
def charLt (a b : Char) : Bool := decide (a.toNat < b.toNat)

/-- Python string `<`: lexicographic by code point, shorter prefix first. -/
def clLt : List Char → List Char → Bool
  | [], [] => false
  | [], _ :: _ => true
  | _ :: _, [] => false
  | a :: as, b :: bs => charLt a b || (a == b && clLt as bs)

/-- Python string `<=`, as the negation of the reversed strict order. -/
def strLe (a b : String) : Bool := !(clLt b.data a.data)

/-- Insert a string into a `strLe`-sorted list. -/
def insertSorted (x : String) : List String → List String
  | [] => [x]
  | y :: r => if strLe x y then x :: y :: r else y :: insertSorted x r

/-- Python `sorted` on a list of distinct strings: the unique arrangement
that is sorted by code point (implemented as insertion sort; proved sorted
and a permutation below). -/
def sortStrs (l : List String) : List String :=
  l.foldr insertSorted []

/-- The keys of a `Counter` fed a stream of symbols: each distinct symbol
once, in first-occurrence order. -/
def dedupFirst (l : List String) : List String :=
  l.foldl (fun acc s => if s ∈ acc then acc else acc ++ [s]) []

/-- Lookup in a symbol-to-id dict modelled as an association list. -/
def lookupS (l : List (String × Nat)) (k : String) : Option Nat :=
  (l.find? (fun p => decide (p.1 = k))).map (fun p => p.2)

/-- Lookup in an id-to-symbol dict modelled as an association list. -/
def lookupN (l : List (Nat × String)) (k : Nat) : Option String :=
  (l.find? (fun p => decide (p.1 = k))).map (fun p => p.2)

/-- The `BPETokenizer` object state (bpe.py lines 61-66). -/
structure BPETokenizer where
  merges : List (String × String)
  vocab : List (String × Nat)
  id_to_token : List (Nat × String)
  special_tokens : List String
deriving DecidableEq, Repr

/-- `BPETokenizer.__init__`: empty merge table, empty vocab, empty reverse
map, the four special tokens. -/
def mkFresh : BPETokenizer :=
  ⟨[], [], [], [PAD, UNK, BOS, EOS]⟩

/-- `{tok: i for i, tok in enumerate(vocab_list)}` (bpe.py line 91),
starting at the given index. -/
def enumIds : Nat → List String → List (String × Nat)
  | _, [] => []
  | i, s :: r => (s, i) :: enumIds (i + 1) r

/-- `{i: t for t, i in self.vocab.items()}` (bpe.py line 130): a Python
dict built left to right where a repeated id keeps the last symbol, so a
first-match lookup must scan the reversed list. -/
def revMap (v : List (String × Nat)) : List (Nat × String) :=
  (v.map (fun p => (p.2, p.1))).reverse

/-- The corpus words of `train` (bpe.py lines 75-78): normalize each text
and extend with its split on single spaces. -/
def corpusWords (texts : List String) : List (List Char) :=
  texts.flatMap (fun t => splitSpace (normalize t).data)

/-- The symbolized corpus of `train` (bpe.py line 81). -/
def tokenizedWords (texts : List String) : List (List String) :=
  (corpusWords texts).map (fun w => word_to_symbols (String.mk w))

/-- `sorted(symbol_counter.keys())` (bpe.py lines 84-87): the distinct
symbols of the symbolized corpus in first-occurrence order, sorted. -/
def initSymbols (texts : List String) : List String :=
  sortStrs (dedupFirst (tokenizedWords texts).flatten)

/-- Total number of symbols across the corpus; the training loop's
termination measure. -/
def totalSyms (tws : List (List String)) : Nat :=
  (tws.map List.length).sum

/-- The greedy merge loop of `train` (bpe.py lines 98-127), with explicit
fuel; `none` means the fuel ran out (never happens for the fuel used by
`train`, see the termination theorem).  Returns the final merge list and
vocabulary. -/
def trainLoopF (limit minFreq : Nat) :
    Nat → List (List String) → List (String × String) → List (String × Nat) →
    Option (List (String × String) × List (String × Nat))
  | 0, _, _, _ => none
  | fuel + 1, tws, merges, vocab =>
    if limit ≤ vocab.length then some (merges, vocab)
    else
      match mostCommon1 (get_stats tws) with
      | none => some (merges, vocab)
      | some (p, freq) =>
        if freq < minFreq then some (merges, vocab)
        else
          trainLoopF limit minFreq fuel (merge_pair p tws) (merges ++ [p])
            (if lookupS vocab (p.1 ++ p.2) = none then
               vocab ++ [(p.1 ++ p.2, vocab.length)]
             else vocab)

/-- `BPETokenizer.train` (bpe.py lines 68-130): build the symbolized
corpus, seed the vocabulary with the special tokens followed by the sorted
distinct symbols, run the greedy merge loop, and build the reverse map.
The defaults are `vocab_size_limit=5000`, `min_pair_freq=2`. -/
def train (texts : List String) (limit minFreq : Nat) : BPETokenizer :=
  match trainLoopF limit minFreq (totalSyms (tokenizedWords texts) + 1)
      (tokenizedWords texts) []
      (enumIds 0 ([PAD, UNK, BOS, EOS] ++ initSymbols texts)) with
  | some (m, v) => ⟨m, v, revMap v, [PAD, UNK, BOS, EOS]⟩
  | none =>
    ⟨[], enumIds 0 ([PAD, UNK, BOS, EOS] ++ initSymbols texts),
      revMap (enumIds 0 ([PAD, UNK, BOS, EOS] ++ initSymbols texts)),
      [PAD, UNK, BOS, EOS]⟩

/-- One pass of the `while merged` loop of `encode_word` (bpe.py lines
144-154): scan left to right, merging any adjacent pair that is in the
learned merge set; the flag records whether any merge happened. -/
def encodePass (merges : List (String × String)) : List String → List String × Bool
  | x :: y :: rest =>
    if (x, y) ∈ merges then
      ((x ++ y) :: (encodePass merges rest).1, true)
    else
      (x :: (encodePass merges (y :: rest)).1, (encodePass merges (y :: rest)).2)
  | l => (l, false)

/-- The `while merged` loop of `encode_word` (bpe.py lines 141-154),
repeating full passes until one makes no merge, with explicit fuel. -/
def encodeLoopF (merges : List (String × String)) :
    Nat → List String → List String
  | 0, syms => syms
  | fuel + 1, syms =>
    if (encodePass merges syms).2 then
      encodeLoopF merges fuel (encodePass merges syms).1
    else (encodePass merges syms).1

/-- `BPETokenizer.encode_word` (bpe.py lines 132-155): character symbols
plus the end marker when the merge table is empty, otherwise the merge
fixpoint of that seed.  The fuel exceeds the symbol count, which suffices
since each merging pass strictly shrinks the list. -/
def encode_word (T : BPETokenizer) (w : String) : List String :=
  if T.merges = [] then charSyms w ++ [WORD_END]
  else encodeLoopF T.merges ((charSyms w ++ [WORD_END]).length + 1)
      (charSyms w ++ [WORD_END])

/-- The id of one symbol in `encode` (bpe.py lines 163-164):
`tok_id = self.vocab.get(s, self.vocab.get(UNK))` followed by
`tok_id if tok_id is not None else self.vocab[UNK]`; the last expression
raises `KeyError` exactly when both lookups miss, modelled as `none`. -/
def symId (T : BPETokenizer) (s : String) : Option Nat :=
  match lookupS T.vocab s with
  | some i => some i
  | none => lookupS T.vocab UNK

/-- Accumulate the ids of a symbol stream; the first failing lookup aborts
the whole encode (the Python loop raises). -/
def idsOf (T : BPETokenizer) : List String → Option (List Nat)
  | [] => some []
  | s :: rest =>
    match symId T s with
    | none => none
    | some i =>
      match idsOf T rest with
      | none => none
      | some l => some (i :: l)

/-- `BPETokenizer.encode` (bpe.py lines 157-165): normalize, split on
single spaces, encode each word, map every symbol to its id. -/
def encode (T : BPETokenizer) (text : String) : Option (List Nat) :=
  idsOf T (((splitSpace (normalize text).data).map
    (fun w => String.mk w)).flatMap (fun w => encode_word T w))

/-- Python `"".join` over a list of strings. -/
def strJoin : List String → String
  | [] => ""
  | s :: r => s ++ strJoin r

/-- The word-rebuilding loop of `decode` (bpe.py lines 170-182): flush the
buffer at each end marker, skip special tokens, accumulate everything
else; flush a nonempty residue at the end. -/
def decodeWords (specials : List String) : List String → List String → List String
  | [], acc => if acc.isEmpty then [] else [strJoin acc]
  | s :: rest, acc =>
    if s = WORD_END then strJoin acc :: decodeWords specials rest []
    else if s ∈ specials then decodeWords specials rest acc
    else decodeWords specials rest (acc ++ [s])

/-- Python `" ".join` over a list of strings. -/
def joinSp : List String → String
  | [] => ""
  | [w] => w
  | w :: v :: vs => w ++ " " ++ joinSp (v :: vs)

/-- `BPETokenizer.decode` (bpe.py lines 167-183): map ids to symbols with
`<unk>` for unknown ids, rebuild the words, join with single spaces. -/
def decode (T : BPETokenizer) (ids : List Nat) : String :=
  joinSp (decodeWords T.special_tokens
    (ids.map (fun i => (lookupN T.id_to_token i).getD UNK)) [])

/-- The persisted model record of `save` (bpe.py lines 185-193): merges in
order, the vocab mapping, the special-token list, the boundary marker. -/
structure SavedData where
  merges : List (String × String)
  vocab : List (String × Nat)
  special_tokens : List String
  word_end : String
deriving DecidableEq, Repr

/-- `BPETokenizer.save` (bpe.py lines 185-193), at record level. -/
def save (T : BPETokenizer) : SavedData :=
  ⟨T.merges, T.vocab, T.special_tokens, WORD_END⟩

/-- `BPETokenizer.load` (bpe.py lines 195-204): rebuild the object from
the record, reconstructing the reverse map; `special_tokens` falls back to
the default list only when absent, and `save` always writes it. -/
def load (d : SavedData) : BPETokenizer :=
  ⟨d.merges, d.vocab, revMap d.vocab, d.special_tokens⟩

/-- A symbol is soundly mapped when the vocab gives it an id and the
reverse map gives that id back the same symbol. -/
def goodSymB (T : BPETokenizer) (s : String) : Bool :=
  match lookupS T.vocab s with
  | some i => lookupN T.id_to_token i == some s
  | none => false

/-- A symbol that decode neither flushes on nor skips. -/
def CleanSym (s : String) : Prop :=
  s ≠ WORD_END ∧ s ∉ [PAD, UNK, BOS, EOS]

/-- The symbols that can occur before the end marker while `encode_word`
merges a word `w`: single characters of `w`, or the concatenation of a
learned merge rule. -/
def SymOK (merges : List (String × String)) (w : List Char) (s : String) : Prop :=
  (∃ c, c ∈ w ∧ s = String.mk [c]) ∨ (∃ p, p ∈ merges ∧ s = p.1 ++ p.2)

/-- Already-canonical whitespace: every whitespace character is a single
space followed by a non-whitespace character. -/
def collapsedB : List Char → Bool
  | [] => true
  | c :: r =>
    if isWs c then
      (c == ' ') &&
      (match r with
       | [] => false
       | d :: _ => !isWs d) && collapsedB r
    else collapsedB r

/-- Join chunks of characters with single spaces; the inverse of
`splitSpace`. -/
def joinSpace : List (List Char) → List Char
  | [] => []
  | [w] => w
  | w :: v :: vs => w ++ ' ' :: joinSpace (v :: vs)

/-- No leading whitespace character. -/
def NoLead (l : List Char) : Prop := ∀ c, l.head? = some c → isWs c = false

/-- No trailing whitespace character. -/
def NoTrail (l : List Char) : Prop := ∀ c, l.getLast? = some c → isWs c = false

/-! Lemmas about `normalize`. -/

theorem subAux_cons_ws_b (b : Bool) (c : Char) (r : List Char) (h : isWs c = true) :
    subAux b (c :: r) = if b then subAux true r else ' ' :: subAux true r := by
  simp [subAux, h]

theorem subAux_cons_nonws (b : Bool) (c : Char) (r : List Char) (h : isWs c = false) :
    subAux b (c :: r) = c :: subAux false r := by
  simp [subAux, h]

theorem collapsedB_cons_nonws (c : Char) (r : List Char) (h : isWs c = false) :
    collapsedB (c :: r) = collapsedB r := by
  simp [collapsedB, h]

theorem collapsedB_cons_ws (c : Char) (r : List Char) (h : isWs c = true) :
    collapsedB (c :: r) =
      ((c == ' ') &&
       (match r with
        | [] => false
        | d :: _ => !isWs d) && collapsedB r) := by
  simp [collapsedB, h]

theorem head_dropWhile_not_ws :
    ∀ (l : List Char) d r', l.dropWhile isWs = d :: r' → isWs d = false := by
  intro l
  induction l with
  | nil => intro d r' h; simp [List.dropWhile] at h
  | cons c r ih =>
    intro d r' h
    rw [List.dropWhile_cons] at h
    by_cases hc : isWs c = true
    · rw [if_pos hc] at h; exact ih _ _ h
    · rw [if_neg hc] at h
      injection h with h1 _
      rw [← h1]
      simpa using hc

theorem dropWhile_ws_decomp (l : List Char) :
    ∃ t, l = t ++ l.dropWhile isWs ∧ ∀ c ∈ t, isWs c = true := by
  refine ⟨l.takeWhile isWs, ?_, ?_⟩
  · exact (List.takeWhile_append_dropWhile isWs l).symm
  · intro c hc; exact List.mem_takeWhile_imp hc

theorem noLead_dropWhile_ws (l : List Char) : NoLead (l.dropWhile isWs) := by
  intro c hc
  cases h : l.dropWhile isWs with
  | nil => rw [h] at hc; simp at hc
  | cons d r' =>
    rw [h] at hc; simp at hc
    rw [← hc]; exact head_dropWhile_not_ws l d r' h

theorem noTrail_cons_of (c : Char) (r : List Char) (h : NoTrail (c :: r))
    (hr : r ≠ []) : NoTrail r := by
  intro d hd
  apply h d
  obtain ⟨e, r', rfl⟩ := List.exists_cons_of_ne_nil hr
  rwa [List.getLast?_cons_cons]

theorem subAux_true_eq (l : List Char) :
    subAux true l = subAux false (l.dropWhile isWs) := by
  induction l with
  | nil => rfl
  | cons c r ih =>
    by_cases hc : isWs c = true
    · rw [List.dropWhile_cons, if_pos hc, subAux_cons_ws_b true c r hc, if_pos rfl]
      exact ih
    · rw [List.dropWhile_cons, if_neg hc,
        subAux_cons_nonws true c r (by simpa using hc),
        subAux_cons_nonws false c r (by simpa using hc)]

theorem subAux_false_of_collapsed :
    ∀ l : List Char, collapsedB l = true → subAux false l = l := by
  intro l
  induction l with
  | nil => intro _; rfl
  | cons c r ih =>
    intro h
    by_cases hc : isWs c = true
    · rw [collapsedB_cons_ws c r hc] at h
      simp only [Bool.and_eq_true, beq_iff_eq] at h
      obtain ⟨⟨hsp, hd⟩, hcr⟩ := h
      cases r with
      | nil => simp at hd
      | cons d r' =>
        simp only [Bool.not_eq_true'] at hd
        rw [subAux_cons_ws_b false c (d :: r') hc, if_neg (by simp),
          subAux_cons_nonws true d r' hd, ← subAux_cons_nonws false d r' hd,
          ih hcr, hsp]
    · rw [collapsedB_cons_nonws c r (by simpa using hc)] at h
      rw [subAux_cons_nonws false c r (by simpa using hc), ih h]

theorem all_ws_getLast (l : List Char) (h : ∀ c ∈ l, isWs c = true)
    (hne : l ≠ []) : ∃ c, l.getLast? = some c ∧ isWs c = true := by
  refine ⟨l.getLast hne, List.getLast?_eq_getLast_of_ne_nil hne, ?_⟩
  exact h _ (List.getLast_mem hne)

theorem dropWhile_ne_nil_of_noTrail (l : List Char) (h : NoTrail l)
    (hne : l ≠ []) : l.dropWhile isWs ≠ [] := by
  intro hd
  obtain ⟨t, ht, hws⟩ := dropWhile_ws_decomp l
  rw [hd, List.append_nil] at ht
  obtain ⟨c, hc, hcw⟩ := all_ws_getLast l (ht ▸ hws) hne
  rw [h c hc] at hcw
  exact Bool.false_ne_true hcw

theorem noTrail_dropWhile_ws (l : List Char) (h : NoTrail l) :
    NoTrail (l.dropWhile isWs) := by
  obtain ⟨t, ht, _⟩ := dropWhile_ws_decomp l
  by_cases hd : l.dropWhile isWs = []
  · intro c hc; rw [hd] at hc; simp at hc
  · intro c hc
    apply h c
    conv_lhs => rw [ht]
    rwa [List.getLast?_append_of_ne_nil t hd]

theorem collapsed_subAux_false :
    ∀ (n : ℕ) (l : List Char), l.length ≤ n → NoTrail l →
      collapsedB (subAux false l) = true := by
  intro n
  induction n with
  | zero =>
    intro l hl _
    have : l = [] := List.eq_nil_of_length_eq_zero (Nat.le_zero.mp hl)
    subst this; rfl
  | succ n ih =>
    intro l hl hnt
    cases l with
    | nil => rfl
    | cons c r =>
      by_cases hc : isWs c = true
      · have hrne : r ≠ [] := by
          intro hr; subst hr
          have := hnt c (by simp)
          rw [this] at hc; exact Bool.false_ne_true hc
        have hntr : NoTrail r := noTrail_cons_of c r hnt hrne
        have hdne : r.dropWhile isWs ≠ [] :=
          dropWhile_ne_nil_of_noTrail r hntr hrne
        obtain ⟨d, r', hdr⟩ := List.exists_cons_of_ne_nil hdne
        have hdws : isWs d = false := head_dropWhile_not_ws r d r' hdr
        have hlen : (r.dropWhile isWs).length ≤ n := by
          have h1 : (r.dropWhile isWs).length ≤ r.length :=
            (List.dropWhile_sublist (l := r) (p := isWs)).length_le
          have h2 : (c :: r).length ≤ n + 1 := hl
          simp only [List.length_cons] at h2
          omega
        have hcol : collapsedB (subAux false (r.dropWhile isWs)) = true :=
          ih (r.dropWhile isWs) hlen (noTrail_dropWhile_ws r hntr)
        rw [subAux_cons_ws_b false c r hc, if_neg (by simp),
          subAux_true_eq, hdr]
        rw [hdr, subAux_cons_nonws false d r' hdws] at hcol
        rw [subAux_cons_nonws false d r' hdws]
        rw [collapsedB_cons_ws ' ' (d :: subAux false r') (by rfl)]
        simp only [Bool.and_eq_true, beq_self_eq_true, true_and]
        refine ⟨by simp [hdws], ?_⟩
        rwa [collapsedB_cons_nonws d (subAux false r') hdws] at hcol ⊢
      · have hntr : NoTrail r := by
          cases hr : r with
          | nil => intro x hx; simp [hr] at hx
          | cons d r' => rw [← hr]; exact noTrail_cons_of c r hnt (by simp [hr])
        have hlen : r.length ≤ n := by
          have h2 : (c :: r).length ≤ n + 1 := hl
          simp only [List.length_cons] at h2
          omega
        have hcol := ih r hlen hntr
        rw [subAux_cons_nonws false c r (by simpa using hc),
          collapsedB_cons_nonws c (subAux false r) (by simpa using hc)]
        exact hcol

theorem noTrail_of_collapsed : ∀ l : List Char, collapsedB l = true → NoTrail l := by
  intro l
  induction l with
  | nil => intro _ c hc; simp at hc
  | cons c r ih =>
    intro h d hd
    by_cases hc : isWs c = true
    · rw [collapsedB_cons_ws c r hc] at h
      simp only [Bool.and_eq_true, beq_iff_eq] at h
      obtain ⟨⟨_, hhd⟩, hcr⟩ := h
      cases r with
      | nil => simp at hhd
      | cons e r' =>
        rw [List.getLast?_cons_cons] at hd
        exact ih hcr d hd
    · rw [collapsedB_cons_nonws c r (by simpa using hc)] at h
      cases hr : r with
      | nil =>
        subst hr; simp at hd; rw [← hd]; simpa using hc
      | cons e r' =>
        subst hr
        rw [List.getLast?_cons_cons] at hd
        exact ih h d hd

theorem noLead_subAux_false (l : List Char) (h : NoLead l) :
    NoLead (subAux false l) := by
  cases l with
  | nil => intro c hc; simp [subAux] at hc
  | cons c r =>
    have hc : isWs c = false := h c (by simp)
    intro d hd
    rw [subAux_cons_nonws false c r hc] at hd
    simp at hd
    rw [← hd]; exact hc

theorem pyStrip_noLead (l : List Char) : NoLead (pyStrip l) := by
  intro c hc
  unfold pyStrip at hc
  cases hs : ((l.dropWhile isWs).reverse.dropWhile isWs).reverse with
  | nil => rw [hs] at hc; simp at hc
  | cons d r' =>
    rw [hs] at hc; simp at hc
    subst hc
    obtain ⟨t, ht, _⟩ := dropWhile_ws_decomp (l.dropWhile isWs).reverse
    have hmn : l.dropWhile isWs =
        ((l.dropWhile isWs).reverse.dropWhile isWs).reverse ++ t.reverse := by
      have h2 := congrArg List.reverse ht
      rwa [List.reverse_reverse, List.reverse_append] at h2
    rw [hs] at hmn
    have hh : (l.dropWhile isWs).head? = some d := by rw [hmn]; rfl
    exact noLead_dropWhile_ws l d hh

theorem pyStrip_noTrail (l : List Char) : NoTrail (pyStrip l) := by
  unfold pyStrip
  intro c hc
  rw [List.getLast?_reverse] at hc
  cases hs : (l.dropWhile isWs).reverse.dropWhile isWs with
  | nil => rw [hs] at hc; simp at hc
  | cons d r' =>
    rw [hs] at hc; simp at hc
    rw [← hc]
    exact head_dropWhile_not_ws _ d r' hs

theorem pyStrip_eq_self (l : List Char) (h1 : NoLead l) (h2 : NoTrail l) :
    pyStrip l = l := by
  unfold pyStrip
  have hd1 : l.dropWhile isWs = l := by
    cases l with
    | nil => rfl
    | cons c r => rw [List.dropWhile_cons, h1 c (by simp)]; simp
  rw [hd1]
  have hd2 : l.reverse.dropWhile isWs = l.reverse := by
    cases hr : l.reverse with
    | nil => simp
    | cons c r =>
      rw [List.dropWhile_cons]
      have : l.getLast? = some c := by rw [← List.head?_reverse, hr]; simp
      rw [h2 c this]
      simp
  rw [hd2, List.reverse_reverse]

theorem normalize_data (s : String) :
    (normalize s).data = subWsRuns (pyStrip s.data) := rfl

/-! Lemmas about `splitSpace` and the joins. -/

theorem splitSpace_ne_nil : ∀ l : List Char, splitSpace l ≠ [] := by
  intro l
  cases l with
  | nil => simp [splitSpace]
  | cons c r =>
    by_cases hc : c = ' '
    · simp [splitSpace, hc]
    · simp only [splitSpace, hc, if_false, reduceIte]
      cases h : splitSpace r with
      | nil => simp [consHead]
      | cons w ws => simp [consHead]

theorem joinSpace_cons (w : List Char) (ws : List (List Char)) (h : ws ≠ []) :
    joinSpace (w :: ws) = w ++ ' ' :: joinSpace ws := by
  obtain ⟨v, vs, rfl⟩ := List.exists_cons_of_ne_nil h
  rfl

theorem joinSpace_splitSpace : ∀ l : List Char, joinSpace (splitSpace l) = l := by
  intro l
  induction l with
  | nil => rfl
  | cons c r ih =>
    by_cases hc : c = ' '
    · simp only [splitSpace, hc, if_true, reduceIte]
      rw [joinSpace_cons [] (splitSpace r) (splitSpace_ne_nil r), ih]
      simp [hc]
    · simp only [splitSpace, hc, if_false, reduceIte]
      cases h : splitSpace r with
      | nil => exact absurd h (splitSpace_ne_nil r)
      | cons w ws =>
        rw [h] at ih
        simp only [consHead]
        cases ws with
        | nil => simp only [joinSpace] at ih ⊢; rw [ih]
        | cons v vs =>
          rw [joinSpace_cons (c :: w) (v :: vs) (by simp),
            ← ih, joinSpace_cons w (v :: vs) (by simp)]
          rfl

theorem splitSpace_no_space :
    ∀ (l : List Char) (w : List Char), w ∈ splitSpace l → ∀ c ∈ w, c ≠ ' ' := by
  intro l
  induction l with
  | nil =>
    intro w hw c hc
    rw [show splitSpace [] = [[]] from rfl] at hw
    rw [List.mem_singleton] at hw
    subst hw; simp at hc
  | cons a r ih =>
    intro w hw c hc
    by_cases ha : a = ' '
    · simp only [splitSpace, ha, if_true, reduceIte] at hw
      cases hw with
      | head => simp at hc
      | tail _ h => exact ih w h c hc
    · simp only [splitSpace, ha, if_false, reduceIte] at hw
      cases h : splitSpace r with
      | nil => exact absurd h (splitSpace_ne_nil r)
      | cons v vs =>
        rw [h] at hw
        simp only [consHead] at hw
        cases hw with
        | head =>
          cases hc with
          | head => exact ha
          | tail _ hc' => exact ih v (h ▸ List.mem_cons_self v vs) c hc'
        | tail _ htl =>
          exact ih w (h ▸ List.mem_cons_of_mem v htl) c hc

theorem mem_joinSpace (ws : List (List Char)) (w : List Char) (c : Char)
    (hw : w ∈ ws) (hc : c ∈ w) : c ∈ joinSpace ws := by
  induction ws with
  | nil => simp at hw
  | cons v vs ih =>
    cases hw with
    | head =>
      cases vs with
      | nil => exact hc
      | cons u us =>
        rw [joinSpace_cons w (u :: us) (by simp)]
        exact List.mem_append_left _ hc
    | tail _ h =>
      have hne : vs ≠ [] := by
        intro h0; rw [h0] at h; exact absurd h (List.not_mem_nil w)
      rw [joinSpace_cons v vs hne]
      exact List.mem_append_right _ (List.mem_cons_of_mem ' ' (ih h))

theorem strJoin_data :
    ∀ l : List String, (strJoin l).data = (l.map String.data).flatten := by
  intro l
  induction l with
  | nil => rfl
  | cons s r ih =>
    show (s ++ strJoin r).data = _
    rw [String.data_append, ih]
    rfl

theorem strJoin_charSyms :
    ∀ w : List Char, strJoin (w.map (fun c => String.mk [c])) = String.mk w := by
  intro w
  apply String.ext
  rw [strJoin_data]
  induction w with
  | nil => rfl
  | cons c r ih =>
    simp only [List.map_cons, List.flatten_cons] at ih ⊢
    rw [ih]
    rfl

theorem joinSp_map_mk :
    ∀ ws : List (List Char), joinSp (ws.map String.mk) = String.mk (joinSpace ws) := by
  intro ws
  induction ws with
  | nil => rfl
  | cons w vs ih =>
    cases vs with
    | nil => rfl
    | cons v us =>
      show String.mk w ++ " " ++ joinSp ((v :: us).map String.mk) = _
      rw [ih, joinSpace_cons w (v :: us) (by simp)]
      apply String.ext
      rw [String.data_append, String.data_append,
        show (" " : String).data = [' '] from rfl, List.append_assoc]
      rfl

/-! Lemmas about the code-point order and `sortStrs`/`dedupFirst`. -/

theorem charLt_iff (a b : Char) : charLt a b = true ↔ a.toNat < b.toNat := by
  simp [charLt]

theorem char_toNat_inj (a b : Char) (h : a.toNat = b.toNat) : a = b :=
  Char.ext (UInt32.toNat.inj h)

theorem clLt_asymm : ∀ x y : List Char, clLt x y = true → clLt y x = false := by
  intro x
  induction x with
  | nil =>
    intro y h
    cases y with
    | nil => simp [clLt] at h
    | cons b bs => rfl
  | cons a as ih =>
    intro y h
    cases y with
    | nil => simp [clLt] at h
    | cons b bs =>
      simp only [clLt, Bool.or_eq_true, Bool.and_eq_true, beq_iff_eq] at h
      show (charLt b a || ((b == a) && clLt bs as)) = false
      simp only [Bool.or_eq_false_iff, Bool.and_eq_false_iff]
      rcases h with hlt | ⟨hab, hr⟩
      · rw [charLt_iff] at hlt
        constructor
        · simp only [charLt, decide_eq_false_iff_not]; omega
        · left
          simp only [beq_eq_false_iff_ne, ne_eq]
          intro he; rw [he] at hlt; omega
      · subst hab
        constructor
        · simp only [charLt, decide_eq_false_iff_not]; omega
        · right; exact ih bs hr

theorem clLt_trans : ∀ x y z : List Char,
    clLt x y = true → clLt y z = true → clLt x z = true := by
  intro x
  induction x with
  | nil =>
    intro y z hxy hyz
    cases y with
    | nil => simp [clLt] at hxy
    | cons b bs =>
      cases z with
      | nil => simp [clLt] at hyz
      | cons c cs => rfl
  | cons a as ih =>
    intro y z hxy hyz
    cases y with
    | nil => simp [clLt] at hxy
    | cons b bs =>
      cases z with
      | nil => simp [clLt] at hyz
      | cons c cs =>
        simp only [clLt, Bool.or_eq_true, Bool.and_eq_true, beq_iff_eq] at hxy hyz ⊢
        rcases hxy with h1 | ⟨hab, h1⟩ <;> rcases hyz with h2 | ⟨hbc, h2⟩
        · left; rw [charLt_iff] at h1 h2 ⊢; omega
        · subst hbc; left; exact h1
        · subst hab; left; exact h2
        · subst hab; subst hbc; right; exact ⟨rfl, ih bs cs h1 h2⟩

theorem clLt_conn : ∀ x y : List Char,
    clLt x y = false → clLt y x = false → x = y := by
  intro x
  induction x with
  | nil =>
    intro y hxy _
    cases y with
    | nil => rfl
    | cons b bs => simp [clLt] at hxy
  | cons a as ih =>
    intro y hxy hyx
    cases y with
    | nil => simp [clLt] at hyx
    | cons b bs =>
      simp only [clLt, Bool.or_eq_false_iff, Bool.and_eq_false_iff] at hxy hyx
      obtain ⟨hab, hr1⟩ := hxy
      obtain ⟨hba, hr2⟩ := hyx
      simp only [charLt, decide_eq_false_iff_not] at hab hba
      have hane : a = b := char_toNat_inj a b (by omega)
      subst hane
      have h1 : clLt as bs = false := by
        rcases hr1 with h | h
        · simp at h
        · exact h
      have h2 : clLt bs as = false := by
        rcases hr2 with h | h
        · simp at h
        · exact h
      rw [ih bs h1 h2]

theorem strLe_of_not (a b : String) (h : strLe a b = false) : strLe b a = true := by
  have h' : clLt b.data a.data = true := by
    unfold strLe at h
    simpa using h
  unfold strLe
  rw [clLt_asymm _ _ h']
  rfl

theorem strLe_trans (a b c : String) (h1 : strLe a b = true) (h2 : strLe b c = true) :
    strLe a c = true := by
  have h1' : clLt b.data a.data = false := by
    unfold strLe at h1; simpa using h1
  have h2' : clLt c.data b.data = false := by
    unfold strLe at h2; simpa using h2
  have hgoal : clLt c.data a.data = false := by
    cases hca : clLt c.data a.data with
    | false => rfl
    | true =>
      exfalso
      cases hbc : clLt b.data c.data with
      | true =>
        have hba := clLt_trans _ _ _ hbc hca
        rw [hba] at h1'
        simp at h1'
      | false =>
        have heq : b.data = c.data := clLt_conn _ _ hbc h2'
        rw [heq] at h1'
        rw [h1'] at hca
        simp at hca
  unfold strLe
  rw [hgoal]
  rfl

theorem clLt_of_strLe_ne (a b : String) (h : strLe a b = true) (hne : a ≠ b) :
    clLt a.data b.data = true := by
  have h' : clLt b.data a.data = false := by
    unfold strLe at h; simpa using h
  cases hab : clLt a.data b.data with
  | true => rfl
  | false =>
    exact absurd (String.ext (clLt_conn _ _ hab h')) hne

theorem insertSorted_pos (x z : String) (r : List String) (h : strLe x z = true) :
    insertSorted x (z :: r) = x :: z :: r := by
  simp [insertSorted, h]

theorem insertSorted_neg (x z : String) (r : List String) (h : strLe x z = false) :
    insertSorted x (z :: r) = z :: insertSorted x r := by
  simp [insertSorted, h]

theorem mem_insertSorted (x y : String) :
    ∀ l : List String, y ∈ insertSorted x l ↔ y = x ∨ y ∈ l := by
  intro l
  induction l with
  | nil => simp [insertSorted]
  | cons z r ih =>
    cases h : strLe x z with
    | true =>
      rw [insertSorted_pos x z r h]
      simp only [List.mem_cons]
    | false =>
      rw [insertSorted_neg x z r h]
      simp only [List.mem_cons, ih]
      tauto

theorem perm_insertSorted (x : String) :
    ∀ l : List String, (insertSorted x l).Perm (x :: l) := by
  intro l
  induction l with
  | nil => exact List.Perm.refl _
  | cons z r ih =>
    cases h : strLe x z with
    | true => rw [insertSorted_pos x z r h]
    | false =>
      rw [insertSorted_neg x z r h]
      exact (ih.cons z).trans (List.Perm.swap x z r)

theorem pairwise_insertSorted (x : String) :
    ∀ l : List String, l.Pairwise (fun a b => strLe a b = true) →
      (insertSorted x l).Pairwise (fun a b => strLe a b = true) := by
  intro l
  induction l with
  | nil => intro _; simp [insertSorted]
  | cons z r ih =>
    intro hp
    rw [List.pairwise_cons] at hp
    obtain ⟨hz, hr⟩ := hp
    cases h : strLe x z with
    | true =>
      rw [insertSorted_pos x z r h, List.pairwise_cons]
      constructor
      · intro b hb
        rcases List.mem_cons.mp hb with rfl | hb'
        · exact h
        · exact strLe_trans x z b h (hz b hb')
      · rw [List.pairwise_cons]; exact ⟨hz, hr⟩
    | false =>
      rw [insertSorted_neg x z r h, List.pairwise_cons]
      constructor
      · intro b hb
        rcases (mem_insertSorted x b r).mp hb with hbx | hb'
        · rw [hbx]
          exact strLe_of_not x z h
        · exact hz b hb'
      · exact ih hr

theorem sortStrs_perm : ∀ l : List String, (sortStrs l).Perm l := by
  intro l
  induction l with
  | nil => exact List.Perm.refl _
  | cons x r ih =>
    show (insertSorted x (sortStrs r)).Perm (x :: r)
    exact (perm_insertSorted x (sortStrs r)).trans (ih.cons x)

theorem sortStrs_pairwise :
    ∀ l : List String, (sortStrs l).Pairwise (fun a b => strLe a b = true) := by
  intro l
  induction l with
  | nil => exact List.Pairwise.nil
  | cons x r ih => exact pairwise_insertSorted x (sortStrs r) ih

theorem dedupFold_mem (x : String) :
    ∀ (l : List String) (acc : List String),
      (x ∈ l.foldl (fun acc s => if s ∈ acc then acc else acc ++ [s]) acc
        ↔ x ∈ acc ∨ x ∈ l) := by
  intro l
  induction l with
  | nil => intro acc; simp
  | cons s r ih =>
    intro acc
    show x ∈ r.foldl _ (if s ∈ acc then acc else acc ++ [s]) ↔ _
    rw [ih]
    by_cases hs : s ∈ acc
    · simp only [hs, if_true, reduceIte, List.mem_cons]
      constructor
      · rintro (h | h)
        · exact Or.inl h
        · exact Or.inr (Or.inr h)
      · rintro (h | rfl | h)
        · exact Or.inl h
        · exact Or.inl hs
        · exact Or.inr h
    · simp only [hs, if_false, reduceIte, List.mem_append, List.mem_singleton,
        List.mem_cons]
      tauto

theorem dedupFold_nodup :
    ∀ (l : List String) (acc : List String), acc.Nodup →
      (l.foldl (fun acc s => if s ∈ acc then acc else acc ++ [s]) acc).Nodup := by
  intro l
  induction l with
  | nil => intro acc h; exact h
  | cons s r ih =>
    intro acc h
    show (r.foldl _ (if s ∈ acc then acc else acc ++ [s])).Nodup
    apply ih
    by_cases hs : s ∈ acc
    · simpa [hs] using h
    · simp only [hs, if_false, reduceIte]
      rw [List.nodup_append]
      exact ⟨h, List.nodup_singleton s, by
        intro a ha hb
        rw [List.mem_singleton] at hb
        subst hb
        exact hs ha⟩

theorem mem_dedupFirst (x : String) (l : List String) :
    x ∈ dedupFirst l ↔ x ∈ l := by
  unfold dedupFirst
  rw [dedupFold_mem]
  simp

theorem nodup_dedupFirst (l : List String) : (dedupFirst l).Nodup :=
  dedupFold_nodup l [] List.nodup_nil

theorem mem_initSymbols (x : String) (texts : List String) :
    x ∈ initSymbols texts ↔ ∃ w ∈ tokenizedWords texts, x ∈ w := by
  unfold initSymbols
  rw [(sortStrs_perm _).mem_iff, mem_dedupFirst, List.mem_flatten]

theorem initSymbols_sorted (texts : List String) :
    (initSymbols texts).Pairwise (fun a b => clLt a.data b.data = true) := by
  have hnd : (initSymbols texts).Nodup :=
    (sortStrs_perm _).symm.nodup (nodup_dedupFirst _)
  have hle : (initSymbols texts).Pairwise (fun a b => strLe a b = true) :=
    sortStrs_pairwise _
  have := List.Pairwise.and hle (List.Pairwise.imp (fun h => h) hnd)
  exact this.imp (fun h => clLt_of_strLe_ne _ _ h.1 h.2)

/-! Lemmas about `get_stats`, `mostCommon1`, `mergeWord` and the training
loop. -/

theorem mem_bumpPair_keys (st : List ((String × String) × Nat))
    (p x : String × String) (n : Nat) (h : (x, n) ∈ bumpPair st p) :
    (∃ m, (x, m) ∈ st) ∨ x = p := by
  unfold bumpPair at h
  by_cases hmem : st.any (fun q => decide (q.1 = p)) = true
  · rw [if_pos hmem] at h
    obtain ⟨q, hq, hfq⟩ := List.mem_map.mp h
    by_cases hqp : q.1 = p
    · rw [if_pos hqp] at hfq
      left
      exact ⟨q.2, by
        have : x = q.1 := by
          have := congrArg Prod.fst hfq
          simpa using this.symm
        rw [this]; exact hq⟩
    · rw [if_neg hqp] at hfq
      left
      exact ⟨n, hfq ▸ hq⟩
  · rw [if_neg hmem] at h
    rcases List.mem_append.mp h with h1 | h1
    · exact Or.inl ⟨n, h1⟩
    · right
      rw [List.mem_singleton] at h1
      exact congrArg Prod.fst h1

theorem statsFold_keys (ps : List (String × String)) :
    ∀ (st : List ((String × String) × Nat)) (x : String × String) (n : Nat),
      (x, n) ∈ ps.foldl bumpPair st → (∃ m, (x, m) ∈ st) ∨ x ∈ ps := by
  induction ps with
  | nil => intro st x n h; exact Or.inl ⟨n, h⟩
  | cons q qs ih =>
    intro st x n h
    rcases ih (bumpPair st q) x n h with ⟨m, hm⟩ | hx
    · rcases mem_bumpPair_keys st q x m hm with h1 | h1
      · exact Or.inl h1
      · exact Or.inr (h1 ▸ List.mem_cons_self q qs)
    · exact Or.inr (List.mem_cons_of_mem q hx)

theorem get_stats_keys (tws : List (List String)) (x : String × String) (n : Nat)
    (h : (x, n) ∈ get_stats tws) : ∃ w ∈ tws, x ∈ wordPairs w := by
  unfold get_stats at h
  suffices haux : ∀ (l : List (List String)) (st : List ((String × String) × Nat)),
      (x, n) ∈ l.foldl (fun st w => (wordPairs w).foldl bumpPair st) st →
      (∃ m, (x, m) ∈ st) ∨ ∃ w ∈ l, x ∈ wordPairs w by
    rcases haux tws [] h with ⟨m, hm⟩ | hx
    · exact absurd hm (List.not_mem_nil _)
    · exact hx
  intro l
  induction l with
  | nil => intro st h0; exact Or.inl ⟨n, h0⟩
  | cons w ws ih =>
    intro st h0
    rcases ih ((wordPairs w).foldl bumpPair st) h0 with hst | hx
    · obtain ⟨m, hm⟩ := hst
      rcases statsFold_keys (wordPairs w) st x m hm with h1 | h1
      · exact Or.inl h1
      · exact Or.inr ⟨w, List.mem_cons_self w ws, h1⟩
    · obtain ⟨v, hv, hxv⟩ := hx
      exact Or.inr ⟨v, List.mem_cons_of_mem w hv, hxv⟩

theorem bumpPair_counts (st : List ((String × String) × Nat)) (p : String × String)
    (h : ∀ e ∈ st, 1 ≤ e.2) : ∀ e ∈ bumpPair st p, 1 ≤ e.2 := by
  intro e he
  unfold bumpPair at he
  by_cases hmem : st.any (fun q => decide (q.1 = p)) = true
  · rw [if_pos hmem] at he
    obtain ⟨q, hq, hfq⟩ := List.mem_map.mp he
    by_cases hqp : q.1 = p
    · rw [if_pos hqp] at hfq
      have := h q hq
      rw [← hfq]
      exact Nat.le_succ_of_le this
    · rw [if_neg hqp] at hfq
      exact hfq ▸ h q hq
  · rw [if_neg hmem] at he
    rcases List.mem_append.mp he with h1 | h1
    · exact h e h1
    · rw [List.mem_singleton] at h1
      rw [h1]

theorem get_stats_counts (tws : List (List String)) :
    ∀ e ∈ get_stats tws, 1 ≤ e.2 := by
  unfold get_stats
  suffices haux : ∀ (l : List (List String)) (st : List ((String × String) × Nat)),
      (∀ e ∈ st, 1 ≤ e.2) →
      ∀ e ∈ l.foldl (fun st w => (wordPairs w).foldl bumpPair st) st, 1 ≤ e.2 by
    exact haux tws [] (by intro e he; exact absurd he (List.not_mem_nil e))
  intro l
  induction l with
  | nil => intro st h e he; exact h e he
  | cons w ws ih =>
    intro st h e he
    apply ih ((wordPairs w).foldl bumpPair st) _ e he
    clear he
    suffices hin : ∀ (ps : List (String × String)) (st' : List ((String × String) × Nat)),
        (∀ e ∈ st', 1 ≤ e.2) → ∀ e ∈ ps.foldl bumpPair st', 1 ≤ e.2 by
      exact hin (wordPairs w) st h
    intro ps
    induction ps with
    | nil => intro st' h' e' he'; exact h' e' he'
    | cons q qs ihq =>
      intro st' h' e' he'
      exact ihq (bumpPair st' q) (bumpPair_counts st' q h') e' he'

theorem mostCommon1_ne_none (l : List ((String × String) × Nat)) (h : l ≠ []) :
    mostCommon1 l ≠ none := by
  obtain ⟨y, rest, rfl⟩ := List.exists_cons_of_ne_nil h
  show (match mostCommon1 rest with
    | none => some y
    | some z => if z.2 > y.2 then some z else some y) ≠ none
  cases mostCommon1 rest with
  | none => simp
  | some z =>
    by_cases hz : z.2 > y.2
    · simp [hz]
    · simp [hz]

theorem mostCommon1_spec : ∀ (l : List ((String × String) × Nat))
    (x : (String × String) × Nat), mostCommon1 l = some x →
    x ∈ l ∧ (∀ q ∈ l, q.2 ≤ x.2) ∧
      ∃ l₁ l₂, l = l₁ ++ x :: l₂ ∧ ∀ q ∈ l₁, q.2 < x.2 := by
  intro l
  induction l with
  | nil => intro x h; exact absurd h (by simp [mostCommon1])
  | cons y rest ih =>
    intro x h
    rw [show mostCommon1 (y :: rest) = (match mostCommon1 rest with
      | none => some y
      | some z => if z.2 > y.2 then some z else some y) from rfl] at h
    cases hm : mostCommon1 rest with
    | none =>
      rw [hm] at h
      have h' : some y = some x := h
      simp only [Option.some.injEq] at h'
      have hrest : rest = [] := by
        by_contra hne
        exact mostCommon1_ne_none rest hne hm
      subst hrest
      rw [← h']
      refine ⟨List.mem_cons_self y [], ?_, [], [], rfl, ?_⟩
      · intro q hq
        rw [List.mem_singleton] at hq
        rw [hq]
      · intro q hq
        exact absurd hq (List.not_mem_nil q)
    | some z =>
      rw [hm] at h
      have h' : (if z.2 > y.2 then some z else some y) = some x := h
      by_cases hz : z.2 > y.2
      · rw [if_pos hz] at h'
        simp only [Option.some.injEq] at h'
        subst h'
        obtain ⟨hmem, hmax, l₁, l₂, hsplit, hlt⟩ := ih z hm
        refine ⟨List.mem_cons_of_mem y hmem, ?_, y :: l₁, l₂,
          by rw [hsplit]; rfl, ?_⟩
        · intro q hq
          rcases List.mem_cons.mp hq with rfl | hq'
          · exact Nat.le_of_lt hz
          · exact hmax q hq'
        · intro q hq
          rcases List.mem_cons.mp hq with rfl | hq'
          · exact hz
          · exact hlt q hq'
      · rw [if_neg hz] at h'
        simp only [Option.some.injEq] at h'
        subst h'
        obtain ⟨hmem, hmax, _⟩ := ih z hm
        refine ⟨List.mem_cons_self y rest, ?_, [], rest, rfl,
          by intro q hq; exact absurd hq (List.not_mem_nil q)⟩
        intro q hq
        rcases List.mem_cons.mp hq with rfl | hq'
        · exact Nat.le_refl _
        · exact Nat.le_trans (hmax q hq') (Nat.le_of_not_lt hz)

theorem wordPairs_cons2 (x y : String) (rest : List String) :
    wordPairs (x :: y :: rest) = (x, y) :: wordPairs (y :: rest) := rfl

theorem mergeWord_cons2 (a b x y : String) (rest : List String) :
    mergeWord a b (x :: y :: rest) =
      if x = a ∧ y = b then (x ++ y) :: mergeWord a b rest
      else x :: mergeWord a b (y :: rest) := rfl

theorem mergeWord_length_le (a b : String) :
    ∀ (n : Nat) (w : List String), w.length ≤ n →
      (mergeWord a b w).length ≤ w.length := by
  intro n
  induction n with
  | zero =>
    intro w hw
    have : w = [] := List.eq_nil_of_length_eq_zero (Nat.le_zero.mp hw)
    subst this; exact Nat.le_refl _
  | succ n ih =>
    intro w hw
    match w with
    | [] => exact Nat.le_refl _
    | [x] => exact Nat.le_refl _
    | x :: y :: rest =>
      rw [mergeWord_cons2]
      by_cases hxy : x = a ∧ y = b
      · rw [if_pos hxy]
        simp only [List.length_cons]
        have := ih rest (by simp only [List.length_cons] at hw; omega)
        omega
      · rw [if_neg hxy]
        simp only [List.length_cons]
        have := ih (y :: rest) (by simp only [List.length_cons] at hw ⊢; omega)
        simp only [List.length_cons] at this
        omega

theorem mergeWord_length_lt (a b : String) :
    ∀ (n : Nat) (w : List String), w.length ≤ n → (a, b) ∈ wordPairs w →
      (mergeWord a b w).length < w.length := by
  intro n
  induction n with
  | zero =>
    intro w hw hp
    have : w = [] := List.eq_nil_of_length_eq_zero (Nat.le_zero.mp hw)
    subst this
    exact absurd hp (List.not_mem_nil _)
  | succ n ih =>
    intro w hw hp
    match w with
    | [] => exact absurd hp (List.not_mem_nil _)
    | [x] => exact absurd hp (List.not_mem_nil _)
    | x :: y :: rest =>
      rw [mergeWord_cons2]
      by_cases hxy : x = a ∧ y = b
      · rw [if_pos hxy]
        simp only [List.length_cons]
        have := mergeWord_length_le a b rest.length rest (Nat.le_refl _)
        omega
      · rw [if_neg hxy]
        simp only [List.length_cons]
        have hmem : (a, b) ∈ wordPairs (y :: rest) := by
          rw [wordPairs_cons2] at hp
          rcases List.mem_cons.mp hp with heq | h'
          · exfalso
            apply hxy
            exact ⟨(congrArg Prod.fst heq).symm, (congrArg Prod.snd heq).symm⟩
          · exact h'
        have := ih (y :: rest) (by simp only [List.length_cons] at hw ⊢; omega) hmem
        simp only [List.length_cons] at this
        omega

theorem totalSyms_merge_le (p : String × String) :
    ∀ tws : List (List String), totalSyms (merge_pair p tws) ≤ totalSyms tws := by
  intro tws
  induction tws with
  | nil => exact Nat.le_refl _
  | cons w ws ih =>
    show (mergeWord p.1 p.2 w).length + totalSyms (merge_pair p ws) ≤
      w.length + totalSyms ws
    have h1 := mergeWord_length_le p.1 p.2 w.length w (Nat.le_refl _)
    omega

theorem totalSyms_merge_lt (p : String × String) (tws : List (List String))
    (h : ∃ w ∈ tws, p ∈ wordPairs w) :
    totalSyms (merge_pair p tws) < totalSyms tws := by
  induction tws with
  | nil => obtain ⟨w, hw, _⟩ := h; exact absurd hw (List.not_mem_nil w)
  | cons w ws ih =>
    show (mergeWord p.1 p.2 w).length + totalSyms (merge_pair p ws) <
      w.length + totalSyms ws
    obtain ⟨v, hv, hpv⟩ := h
    rcases List.mem_cons.mp hv with heq | hv'
    · rw [heq] at hpv
      have h1 := mergeWord_length_lt p.1 p.2 w.length w (Nat.le_refl _) hpv
      have h2 := totalSyms_merge_le p ws
      omega
    · have h1 := mergeWord_length_le p.1 p.2 w.length w (Nat.le_refl _)
      have h2 := ih ⟨v, hv', hpv⟩
      omega

theorem trainLoopF_succ (limit minFreq fuel : Nat) (tws : List (List String))
    (merges : List (String × String)) (vocab : List (String × Nat)) :
    trainLoopF limit minFreq (fuel + 1) tws merges vocab =
      (if limit ≤ vocab.length then some (merges, vocab)
       else
         match mostCommon1 (get_stats tws) with
         | none => some (merges, vocab)
         | some (p, freq) =>
           if freq < minFreq then some (merges, vocab)
           else
             trainLoopF limit minFreq fuel (merge_pair p tws) (merges ++ [p])
               (if lookupS vocab (p.1 ++ p.2) = none then
                  vocab ++ [(p.1 ++ p.2, vocab.length)]
                else vocab)) := rfl

theorem trainLoopF_vocab_extend (limit minFreq : Nat) :
    ∀ (fuel : Nat) (tws : List (List String)) (merges : List (String × String))
      (vocab : List (String × Nat)) (m : List (String × String))
      (v : List (String × Nat)),
      trainLoopF limit minFreq fuel tws merges vocab = some (m, v) →
      ∃ rest, v = vocab ++ rest := by
  intro fuel
  induction fuel with
  | zero =>
    intro tws merges vocab m v h
    exact absurd h (by simp [trainLoopF])
  | succ n ih =>
    intro tws merges vocab m v h
    rw [trainLoopF_succ] at h
    by_cases h1 : limit ≤ vocab.length
    · rw [if_pos h1] at h
      simp only [Option.some.injEq, Prod.mk.injEq] at h
      exact ⟨[], by rw [← h.2]; simp⟩
    · rw [if_neg h1] at h
      cases hmc : mostCommon1 (get_stats tws) with
      | none =>
        rw [hmc] at h
        have h' : some (merges, vocab) = some (m, v) := h
        simp only [Option.some.injEq, Prod.mk.injEq] at h'
        exact ⟨[], by rw [← h'.2]; simp⟩
      | some pf =>
        rw [hmc] at h
        obtain ⟨p, freq⟩ := pf
        have h' : (if freq < minFreq then some (merges, vocab)
            else trainLoopF limit minFreq n (merge_pair p tws) (merges ++ [p])
              (if lookupS vocab (p.1 ++ p.2) = none then
                 vocab ++ [(p.1 ++ p.2, vocab.length)]
               else vocab)) = some (m, v) := h
        by_cases h2 : freq < minFreq
        · rw [if_pos h2] at h'
          simp only [Option.some.injEq, Prod.mk.injEq] at h'
          exact ⟨[], by rw [← h'.2]; simp⟩
        · rw [if_neg h2] at h'
          by_cases h3 : lookupS vocab (p.1 ++ p.2) = none
          · rw [if_pos h3] at h'
            obtain ⟨rest, hrest⟩ := ih _ _ _ _ _ h'
            exact ⟨(p.1 ++ p.2, vocab.length) :: rest, by
              rw [hrest, List.append_assoc]; rfl⟩
          · rw [if_neg h3] at h'
            exact ih _ _ _ _ _ h'

theorem trainLoopF_isSome (limit minFreq : Nat) :
    ∀ (fuel : Nat) (tws : List (List String)) (merges : List (String × String))
      (vocab : List (String × Nat)), totalSyms tws < fuel →
      (trainLoopF limit minFreq fuel tws merges vocab).isSome = true := by
  intro fuel
  induction fuel with
  | zero => intro tws merges vocab h; omega
  | succ n ih =>
    intro tws merges vocab h
    rw [trainLoopF_succ]
    by_cases h1 : limit ≤ vocab.length
    · rw [if_pos h1]; rfl
    · rw [if_neg h1]
      cases hmc : mostCommon1 (get_stats tws) with
      | none => rfl
      | some pf =>
        obtain ⟨p, freq⟩ := pf
        show (if freq < minFreq then some (merges, vocab)
          else trainLoopF limit minFreq n (merge_pair p tws) (merges ++ [p])
            (if lookupS vocab (p.1 ++ p.2) = none then
               vocab ++ [(p.1 ++ p.2, vocab.length)]
             else vocab)).isSome = true
        by_cases h2 : freq < minFreq
        · rw [if_pos h2]; rfl
        · rw [if_neg h2]
          apply ih
          have hmem : (p, freq) ∈ get_stats tws :=
            (mostCommon1_spec (get_stats tws) (p, freq) hmc).1
          have hocc := get_stats_keys tws p freq hmem
          have hlt := totalSyms_merge_lt p tws hocc
          omega

theorem word_to_symbols_wordEnd (w : String) : WORD_END ∈ word_to_symbols w := by
  unfold word_to_symbols
  by_cases h : w = ""
  · rw [if_pos h]; exact List.mem_singleton.mpr rfl
  · rw [if_neg h]; exact List.mem_append_right _ (List.mem_singleton.mpr rfl)

theorem tokenizedWords_cons (t : String) (ts : List String) :
    tokenizedWords (t :: ts) =
      (splitSpace (normalize t).data).map (fun w => word_to_symbols (String.mk w))
        ++ tokenizedWords ts := by
  unfold tokenizedWords corpusWords
  rw [List.flatMap_cons, List.map_append]

theorem wordEnd_mem_initSymbols (texts : List String) (h : texts ≠ []) :
    WORD_END ∈ initSymbols texts := by
  rw [mem_initSymbols]
  obtain ⟨t, ts, rfl⟩ := List.exists_cons_of_ne_nil h
  obtain ⟨w, ws, hws⟩ :=
    List.exists_cons_of_ne_nil (splitSpace_ne_nil (normalize t).data)
  refine ⟨word_to_symbols (String.mk w), ?_, word_to_symbols_wordEnd _⟩
  rw [tokenizedWords_cons, hws]
  exact List.mem_append_left _ (List.mem_map_of_mem _ (List.mem_cons_self w ws))

theorem train_vocab_shape (texts : List String) (limit minFreq : Nat) :
    ∃ rest, (train texts limit minFreq).vocab =
      enumIds 0 ([PAD, UNK, BOS, EOS] ++ initSymbols texts) ++ rest := by
  unfold train
  cases hres : trainLoopF limit minFreq (totalSyms (tokenizedWords texts) + 1)
      (tokenizedWords texts) []
      (enumIds 0 ([PAD, UNK, BOS, EOS] ++ initSymbols texts)) with
  | none => exact ⟨[], by rw [List.append_nil]⟩
  | some mv =>
    obtain ⟨m, v⟩ := mv
    obtain ⟨rest, hrest⟩ := trainLoopF_vocab_extend limit minFreq _ _ _ _ _ _ hres
    exact ⟨rest, hrest⟩

/-! Lemmas about `encode_word`, `encode` and `decode`. -/

theorem goodSymB_spec (T : BPETokenizer) (s : String) (h : goodSymB T s = true) :
    ∃ i, lookupS T.vocab s = some i ∧ lookupN T.id_to_token i = some s := by
  unfold goodSymB at h
  cases hl : lookupS T.vocab s with
  | none => rw [hl] at h; exact absurd h (by simp)
  | some i =>
    rw [hl] at h
    have h' : (lookupN T.id_to_token i == some s) = true := h
    exact ⟨i, rfl, by simpa using h'⟩

theorem encodePass_cons2 (merges : List (String × String)) (x y : String)
    (rest : List String) :
    encodePass merges (x :: y :: rest) =
      if (x, y) ∈ merges then ((x ++ y) :: (encodePass merges rest).1, true)
      else (x :: (encodePass merges (y :: rest)).1,
        (encodePass merges (y :: rest)).2) := rfl

theorem encodePass_shape (merges : List (String × String)) (w : List Char)
    (hA : ∀ p ∈ merges, p.2 ≠ WORD_END) :
    ∀ (n : Nat) (pre : List String), pre.length ≤ n →
      (∀ s ∈ pre, SymOK merges w s) →
      ∃ pre', (encodePass merges (pre ++ [WORD_END])).1 = pre' ++ [WORD_END] ∧
        strJoin pre' = strJoin pre ∧ ∀ s ∈ pre', SymOK merges w s := by
  intro n
  induction n with
  | zero =>
    intro pre hl _
    have : pre = [] := List.eq_nil_of_length_eq_zero (Nat.le_zero.mp hl)
    subst this
    exact ⟨[], rfl, rfl, by intro s hs; exact absurd hs (List.not_mem_nil s)⟩
  | succ n ih =>
    intro pre hl hP
    match pre with
    | [] =>
      exact ⟨[], rfl, rfl, by intro s hs; exact absurd hs (List.not_mem_nil s)⟩
    | [x] =>
      have hno : (x, WORD_END) ∉ merges := by
        intro hin
        exact hA (x, WORD_END) hin rfl
      refine ⟨[x], ?_, rfl, hP⟩
      show (encodePass merges (x :: WORD_END :: [])).1 = [x] ++ [WORD_END]
      rw [encodePass_cons2, if_neg hno]
      rfl
    | x :: y :: rest =>
      have hlen : (x :: y :: rest).length ≤ n + 1 := hl
      simp only [List.length_cons] at hlen
      show ∃ pre', (encodePass merges (x :: y :: (rest ++ [WORD_END]))).1 =
        pre' ++ [WORD_END] ∧ _ ∧ _
      rw [encodePass_cons2]
      by_cases hxy : (x, y) ∈ merges
      · rw [if_pos hxy]
        obtain ⟨pre'', h1, h2, h3⟩ := ih rest (by omega) (by
          intro s hs
          exact hP s (List.mem_cons_of_mem x (List.mem_cons_of_mem y hs)))
        refine ⟨(x ++ y) :: pre'', by rw [h1]; rfl, ?_, ?_⟩
        · show (x ++ y) ++ strJoin pre'' = strJoin (x :: y :: rest)
          rw [h2]
          show (x ++ y) ++ strJoin rest = x ++ (y ++ strJoin rest)
          rw [String.append_assoc]
        · intro s hs
          rcases List.mem_cons.mp hs with rfl | hs'
          · exact Or.inr ⟨(x, y), hxy, rfl⟩
          · exact h3 s hs'
      · rw [if_neg hxy]
        obtain ⟨pre'', h1, h2, h3⟩ := ih (y :: rest) (by
            simp only [List.length_cons]; omega) (by
          intro s hs
          exact hP s (List.mem_cons_of_mem x hs))
        refine ⟨x :: pre'', by rw [show (y :: rest) ++ [WORD_END] =
          y :: (rest ++ [WORD_END]) from rfl] at h1; rw [h1]; rfl, ?_, ?_⟩
        · show x ++ strJoin pre'' = strJoin (x :: y :: rest)
          rw [h2]; rfl
        · intro s hs
          rcases List.mem_cons.mp hs with rfl | hs'
          · exact hP s (List.mem_cons_self _ _)
          · exact h3 s hs'

theorem encodeLoopF_succ (merges : List (String × String)) (fuel : Nat)
    (syms : List String) :
    encodeLoopF merges (fuel + 1) syms =
      if (encodePass merges syms).2 then
        encodeLoopF merges fuel (encodePass merges syms).1
      else (encodePass merges syms).1 := rfl

theorem encodeLoopF_shape (merges : List (String × String)) (w : List Char)
    (hA : ∀ p ∈ merges, p.2 ≠ WORD_END) :
    ∀ (fuel : Nat) (pre : List String), (∀ s ∈ pre, SymOK merges w s) →
      ∃ pre', encodeLoopF merges fuel (pre ++ [WORD_END]) = pre' ++ [WORD_END] ∧
        strJoin pre' = strJoin pre ∧ ∀ s ∈ pre', SymOK merges w s := by
  intro fuel
  induction fuel with
  | zero => intro pre hP; exact ⟨pre, rfl, rfl, hP⟩
  | succ n ih =>
    intro pre hP
    obtain ⟨pre1, h1, h2, h3⟩ := encodePass_shape merges w hA pre.length pre
      (Nat.le_refl _) hP
    rw [encodeLoopF_succ]
    cases hfl : (encodePass merges (pre ++ [WORD_END])).2 with
    | false =>
      rw [if_neg (by exact Bool.false_ne_true), h1]
      exact ⟨pre1, rfl, h2, h3⟩
    | true =>
      rw [if_pos rfl, h1]
      obtain ⟨pre', g1, g2, g3⟩ := ih pre1 h3
      exact ⟨pre', g1, by rw [g2, h2], g3⟩

theorem strJoin_charSyms_str (w : String) : strJoin (charSyms w) = w := by
  unfold charSyms
  rw [strJoin_charSyms w.data]

theorem charSyms_symOK (T : BPETokenizer) (w : String) :
    ∀ s ∈ charSyms w, SymOK T.merges w.data s := by
  intro s hs
  obtain ⟨c, hc, rfl⟩ := List.mem_map.mp hs
  exact Or.inl ⟨c, hc, rfl⟩

theorem encode_word_shape (T : BPETokenizer) (w : String)
    (hA : ∀ p ∈ T.merges, p.2 ≠ WORD_END) :
    ∃ pre, encode_word T w = pre ++ [WORD_END] ∧ strJoin pre = w ∧
      ∀ s ∈ pre, SymOK T.merges w.data s := by
  unfold encode_word
  by_cases hm : T.merges = []
  · rw [if_pos hm]
    exact ⟨charSyms w, rfl, strJoin_charSyms_str w, charSyms_symOK T w⟩
  · rw [if_neg hm]
    obtain ⟨pre', h1, h2, h3⟩ := encodeLoopF_shape T.merges w.data hA
      ((charSyms w ++ [WORD_END]).length + 1) (charSyms w) (charSyms_symOK T w)
    exact ⟨pre', h1, by rw [h2]; exact strJoin_charSyms_str w, h3⟩

theorem idsOf_good (T : BPETokenizer) :
    ∀ syms : List String, (∀ s ∈ syms, goodSymB T s = true) →
      ∃ ids, idsOf T syms = some ids ∧
        ids.map (fun i => (lookupN T.id_to_token i).getD UNK) = syms := by
  intro syms
  induction syms with
  | nil => intro _; exact ⟨[], rfl, rfl⟩
  | cons s rest ih =>
    intro h
    obtain ⟨i, hv, hn⟩ := goodSymB_spec T s (h s (List.mem_cons_self s rest))
    obtain ⟨ids, hids, hmap⟩ := ih (by
      intro x hx; exact h x (List.mem_cons_of_mem s hx))
    refine ⟨i :: ids, ?_, ?_⟩
    · show (match symId T s with
        | none => none
        | some i => match idsOf T rest with
          | none => none
          | some l => some (i :: l)) = some (i :: ids)
      rw [show symId T s = some i from by unfold symId; rw [hv], hids]
    · simp only [List.map_cons, hmap, hn]
      rfl

theorem decodeWords_cons (specials : List String) (s : String) (l acc : List String) :
    decodeWords specials (s :: l) acc =
      if s = WORD_END then strJoin acc :: decodeWords specials l []
      else if s ∈ specials then decodeWords specials l acc
      else decodeWords specials l (acc ++ [s]) := rfl

theorem strJoin_append (l₁ l₂ : List String) :
    strJoin (l₁ ++ l₂) = strJoin l₁ ++ strJoin l₂ := by
  induction l₁ with
  | nil =>
    show strJoin l₂ = "" ++ strJoin l₂
    apply String.ext
    rw [String.data_append]
    rfl
  | cons s r ih =>
    show s ++ strJoin (r ++ l₂) = (s ++ strJoin r) ++ strJoin l₂
    rw [ih, String.append_assoc]

theorem decodeWords_flush (specials : List String) :
    ∀ (pre rest acc : List String),
      (∀ s ∈ pre, s ≠ WORD_END ∧ s ∉ specials) →
      decodeWords specials (pre ++ WORD_END :: rest) acc =
        strJoin (acc ++ pre) :: decodeWords specials rest [] := by
  intro pre
  induction pre with
  | nil =>
    intro rest acc _
    rw [List.nil_append, decodeWords_cons, if_pos rfl, List.append_nil]
  | cons s pre ih =>
    intro rest acc h
    obtain ⟨hne, hnsp⟩ := h s (List.mem_cons_self s pre)
    rw [List.cons_append, decodeWords_cons, if_neg hne, if_neg hnsp,
      ih rest (acc ++ [s]) (by
        intro x hx; exact h x (List.mem_cons_of_mem s hx)),
      List.append_assoc]
    rfl

theorem decodeWords_concat (specials : List String) :
    ∀ pres : List (List String),
      (∀ pre ∈ pres, ∀ s ∈ pre, s ≠ WORD_END ∧ s ∉ specials) →
      decodeWords specials ((pres.map (fun pre => pre ++ [WORD_END])).flatten) []
        = pres.map strJoin := by
  intro pres
  induction pres with
  | nil => intro _; rfl
  | cons pre rest ih =>
    intro h
    rw [List.map_cons, List.flatten_cons,
      show (pre ++ [WORD_END]) ++ ((rest.map (fun pre => pre ++ [WORD_END])).flatten)
        = pre ++ (WORD_END :: (rest.map (fun pre => pre ++ [WORD_END])).flatten) from by
        rw [List.append_assoc]; rfl,
      decodeWords_flush specials pre _ [] (h pre (List.mem_cons_self pre rest)),
      ih (by intro q hq s hs; exact h q (List.mem_cons_of_mem pre hq) s hs)]
    rfl

theorem encode_words_decompose (T : BPETokenizer) (t : String)
    (hA : ∀ p ∈ T.merges, p.2 ≠ WORD_END) :
    ∀ ws : List (List Char), (∀ w ∈ ws, ∀ c ∈ w, c ∈ t.data ∧ c ≠ ' ') →
      ∃ pres : List (List String),
        (ws.map (fun w => String.mk w)).flatMap (fun w => encode_word T w)
          = (pres.map (fun pre => pre ++ [WORD_END])).flatten
        ∧ pres.map strJoin = ws.map (fun w => String.mk w)
        ∧ ∀ pre ∈ pres, ∀ s ∈ pre,
            (∃ c, c ∈ t.data ∧ c ≠ ' ' ∧ s = String.mk [c]) ∨
            (∃ p, p ∈ T.merges ∧ s = p.1 ++ p.2) := by
  intro ws
  induction ws with
  | nil =>
    intro _
    exact ⟨[], rfl, rfl, by intro pre hpre; exact absurd hpre (List.not_mem_nil pre)⟩
  | cons w rest ih =>
    intro h
    obtain ⟨pre0, hsh, hj, hsym⟩ := encode_word_shape T (String.mk w) hA
    obtain ⟨pres, g1, g2, g3⟩ := ih (by
      intro v hv c hc; exact h v (List.mem_cons_of_mem w hv) c hc)
    refine ⟨pre0 :: pres, ?_, ?_, ?_⟩
    · rw [List.map_cons, List.flatMap_cons, hsh, g1, List.map_cons,
        List.flatten_cons]
    · rw [List.map_cons, List.map_cons, hj, g2]
    · intro pre hpre s hs
      rcases List.mem_cons.mp hpre with rfl | hpre'
      · rcases hsym s hs with ⟨c, hc, rfl⟩ | hmrg
        · exact Or.inl ⟨c, (h w (List.mem_cons_self w rest) c hc).1,
            (h w (List.mem_cons_self w rest) c hc).2, rfl⟩
        · exact Or.inr hmrg
      · exact g3 pre hpre' s hs

theorem mk_single_ne_of_len (c : Char) (t : String) (h : t.data.length ≠ 1) :
    String.mk [c] ≠ t := by
  intro he
  apply h
  rw [← he]
  rfl

theorem clean_of_decomp (T : BPETokenizer) (tdata : List Char)
    (hB : ∀ p ∈ T.merges, '<' ∉ (p.1 ++ p.2).data) (s : String)
    (h : (∃ c, c ∈ tdata ∧ c ≠ ' ' ∧ s = String.mk [c]) ∨
      (∃ p, p ∈ T.merges ∧ s = p.1 ++ p.2)) :
    s ≠ WORD_END ∧ s ∉ [PAD, UNK, BOS, EOS] := by
  rcases h with ⟨c, _, _, rfl⟩ | ⟨p, hp, rfl⟩
  · constructor
    · exact mk_single_ne_of_len c WORD_END (by decide)
    · intro hmem
      simp only [List.mem_cons, List.not_mem_nil, or_false] at hmem
      rcases hmem with he | he | he | he
      · exact mk_single_ne_of_len c PAD (by decide) he
      · exact mk_single_ne_of_len c UNK (by decide) he
      · exact mk_single_ne_of_len c BOS (by decide) he
      · exact mk_single_ne_of_len c EOS (by decide) he
  · constructor
    · intro he
      apply hB p hp
      rw [he]
      decide
    · intro hmem
      simp only [List.mem_cons, List.not_mem_nil, or_false] at hmem
      rcases hmem with he | he | he | he <;>
        (apply hB p hp; rw [he]; decide)

theorem decodeWords_all_special (specials : List String) :
    ∀ (syms acc : List String), (∀ s ∈ syms, s ≠ WORD_END ∧ s ∈ specials) →
      decodeWords specials syms acc =
        (if acc.isEmpty then [] else [strJoin acc]) := by
  intro syms
  induction syms with
  | nil => intro acc _; rfl
  | cons s rest ih =>
    intro acc h
    obtain ⟨hne, hsp⟩ := h s (List.mem_cons_self s rest)
    rw [decodeWords_cons, if_neg hne, if_pos hsp]
    exact ih acc (by intro x hx; exact h x (List.mem_cons_of_mem s hx))

theorem decodeWords_skip_unk (specials : List String)
    (hu1 : UNK ≠ WORD_END) (hu2 : UNK ∈ specials) :
    ∀ (A B acc : List String),
      decodeWords specials (A ++ UNK :: B) acc =
        decodeWords specials (A ++ B) acc := by
  intro A
  induction A with
  | nil =>
    intro B acc
    rw [List.nil_append, List.nil_append, decodeWords_cons, if_neg hu1,
      if_pos hu2]
  | cons s A ih =>
    intro B acc
    rw [List.cons_append, List.cons_append, decodeWords_cons, decodeWords_cons]
    by_cases h1 : s = WORD_END
    · rw [if_pos h1, if_pos h1, ih B []]
    · rw [if_neg h1, if_neg h1]
      by_cases h2 : s ∈ specials
      · rw [if_pos h2, if_pos h2, ih B acc]
      · rw [if_neg h2, if_neg h2, ih B (acc ++ [s])]

theorem normalize_idem_helper (s : String) : normalize (normalize s) = normalize s := by
  have h1 : NoLead (pyStrip s.data) := pyStrip_noLead s.data
  have h2 : NoTrail (pyStrip s.data) := pyStrip_noTrail s.data
  have h3 : collapsedB (subWsRuns (pyStrip s.data)) = true :=
    collapsed_subAux_false (pyStrip s.data).length (pyStrip s.data) le_rfl h2
  have h4 : NoTrail (subWsRuns (pyStrip s.data)) :=
    noTrail_of_collapsed _ h3
  have h5 : NoLead (subWsRuns (pyStrip s.data)) :=
    noLead_subAux_false _ h1
  show String.mk (subWsRuns (pyStrip (normalize s).data)) = normalize s
  rw [normalize_data, pyStrip_eq_self _ h5 h4]
  show String.mk (subAux false (subWsRuns (pyStrip s.data))) = normalize s
  rw [subAux_false_of_collapsed _ h3]
  rfl

/-! The claims. -/

/-- C1, counterexample: the round-trip claim fails on the code as written.
Training on `["a a"]` learns the merge `("a", "</w>")`; `encode "a"` then
produces the single symbol `"a</w>"` (id 6), and `decode` emits that
merged symbol literally instead of flushing a word, returning `"a</w>"`
rather than `"a"` — even though `"a"` uses only training-vocabulary
characters and has no multiple-space runs. -/
theorem claim1_counterexample :
    encode (train ["a a"] 5000 2) (normalize "a") = some [6] ∧
    decode (train ["a a"] 5000 2) [6] ≠ normalize "a" := by decide

/-- C1, amended: the round trip `decode (encode (normalize text)) =
normalize text` holds for every tokenizer whose special tokens are the
four defaults, whose merge rules never have the word-boundary marker as
their right element and never produce a symbol containing the character
`<`, and whose vocabulary maps the marker, every merged symbol, and every
non-space character of the normalized text to an id that maps back to the
same symbol. -/
theorem claim1_roundtrip (T : BPETokenizer) (text : String)
    (hS : T.special_tokens = [PAD, UNK, BOS, EOS])
    (hA : ∀ p ∈ T.merges, p.2 ≠ WORD_END)
    (hB : ∀ p ∈ T.merges, '<' ∉ (p.1 ++ p.2).data)
    (hC : ∀ p ∈ T.merges, goodSymB T (p.1 ++ p.2) = true)
    (hD : goodSymB T WORD_END = true)
    (hE : ∀ c ∈ (normalize text).data, c ≠ ' ' → goodSymB T (String.mk [c]) = true) :
    ∃ ids, encode T (normalize text) = some ids ∧
      decode T ids = normalize text := by
  have hchars : ∀ w ∈ splitSpace (normalize text).data, ∀ c ∈ w,
      c ∈ (normalize text).data ∧ c ≠ ' ' := by
    intro w hw c hc
    refine ⟨?_, splitSpace_no_space (normalize text).data w hw c hc⟩
    rw [← joinSpace_splitSpace (normalize text).data]
    exact mem_joinSpace _ w c hw hc
  obtain ⟨pres, g1, g2, g3⟩ := encode_words_decompose T (normalize text) hA
    (splitSpace (normalize text).data) hchars
  have hgood : ∀ s ∈ (pres.map (fun pre => pre ++ [WORD_END])).flatten,
      goodSymB T s = true := by
    intro s hs
    rw [List.mem_flatten] at hs
    obtain ⟨blk, hblk, hsblk⟩ := hs
    obtain ⟨pre, hpre, rfl⟩ := List.mem_map.mp hblk
    rcases List.mem_append.mp hsblk with hsp | hsw
    · rcases g3 pre hpre s hsp with ⟨c, hct, hcn, rfl⟩ | ⟨p, hp, rfl⟩
      · exact hE c hct hcn
      · exact hC p hp
    · rw [List.mem_singleton] at hsw
      rw [hsw]
      exact hD
  obtain ⟨ids, hids, hmap⟩ := idsOf_good T _ hgood
  refine ⟨ids, ?_, ?_⟩
  · show idsOf T (((splitSpace (normalize (normalize text)).data).map
        (fun w => String.mk w)).flatMap (fun w => encode_word T w)) = some ids
    rw [normalize_idem_helper text, g1]
    exact hids
  · show joinSp (decodeWords T.special_tokens
      (ids.map (fun i => (lookupN T.id_to_token i).getD UNK)) []) = normalize text
    rw [hmap, hS, decodeWords_concat [PAD, UNK, BOS, EOS] pres (by
        intro pre hpre s hs
        exact clean_of_decomp T (normalize text).data hB s (g3 pre hpre s hs)),
      g2,
      show ((splitSpace (normalize text).data).map (fun w => String.mk w))
        = ((splitSpace (normalize text).data).map String.mk) from rfl,
      joinSp_map_mk, joinSpace_splitSpace]

/-- C1, witness: the amended round trip at the tokenizer trained on
`["b a"]` (no merges are learned) and the text `"b a"`. -/
theorem claim1_roundtrip_witness :
    ∃ ids, encode (train ["b a"] 5000 2) (normalize "b a") = some ids ∧
      decode (train ["b a"] 5000 2) ids = normalize "b a" :=
  claim1_roundtrip (train ["b a"] 5000 2) "b a" (by decide) (by decide)
    (by decide) (by decide) (by decide) (by decide)

/-- C2, counterexample: a freshly constructed tokenizer has an empty
vocabulary, so `encode "hi"` does not return character ids plus the
marker id — the unknown-token fallback `self.vocab[UNK]` raises
(modelled as `none`). -/
theorem claim2_counterexample : encode mkFresh "hi" = none := by decide

/-- C2, amended: on a freshly constructed tokenizer, `encode_word "hi"`
does produce the character symbols plus the boundary marker, but `encode
"hi"` fails with a key lookup error (there is no unknown-token id in the
empty vocabulary), and `decode` renders every id of any sequence as the
unknown token, yielding `""` — it cannot reconstruct `"hi"`. -/
theorem claim2_fresh_behaviour :
    encode_word mkFresh "hi" = ["h", "i", WORD_END] ∧
    encode mkFresh "hi" = none ∧
    ∀ ids : List Nat, decode mkFresh ids = "" := by
  refine ⟨by decide, by decide, ?_⟩
  intro ids
  show joinSp (decodeWords [PAD, UNK, BOS, EOS]
    (ids.map (fun i => (lookupN ([] : List (Nat × String)) i).getD UNK)) []) = ""
  rw [decodeWords_all_special [PAD, UNK, BOS, EOS] _ [] (by
    intro s hs
    obtain ⟨i, _, rfl⟩ := List.mem_map.mp hs
    have hv : (lookupN ([] : List (Nat × String)) i).getD UNK = UNK := rfl
    rw [hv]
    exact ⟨by decide, by decide⟩)]
  rfl

/-- C3, counterexample: `encode ""` on a trained tokenizer returns the
one-element sequence holding the boundary marker's id (the Python split
of `""` on a space is `[""]`, and the empty word symbolizes to the
marker alone), not the empty sequence. -/
theorem claim3_counterexample :
    encode (train ["a"] 5000 2) "" = some [4] ∧
    (some [4] : Option (List Nat)) ≠ some ([] : List Nat) := by decide

/-- C3, amended: whenever the boundary marker is in the vocabulary with
id `n`, `encode ""` returns `[n]` (never `[]`), and `decode []`
returns `""`. -/
theorem claim3_empty_behaviour (T : BPETokenizer) (n : Nat)
    (h : lookupS T.vocab WORD_END = some n) :
    encode T "" = some [n] ∧ decode T [] = "" := by
  constructor
  · have hw : encode_word T "" = [WORD_END] := by
      unfold encode_word
      by_cases hm : T.merges = []
      · rw [if_pos hm]; rfl
      · rw [if_neg hm]; rfl
    have h1 : (((splitSpace (normalize "").data).map (fun w => String.mk w)).flatMap
        (fun w => encode_word T w)) = encode_word T "" ++ [] := rfl
    show idsOf T (((splitSpace (normalize "").data).map (fun w => String.mk w)).flatMap
      (fun w => encode_word T w)) = some [n]
    rw [h1, List.append_nil, hw]
    show (match symId T WORD_END with
      | none => none
      | some i => match idsOf T ([] : List String) with
        | none => none
        | some l => some (i :: l)) = some [n]
    rw [show symId T WORD_END = some n from by unfold symId; rw [h]]
    rfl
  · rfl

/-- C3, witness: the amended statement at the tokenizer trained on
`["a"]`, whose boundary-marker id is 4. -/
theorem claim3_empty_behaviour_witness :
    encode (train ["a"] 5000 2) "" = some [4] ∧
      decode (train ["a"] 5000 2) [] = "" :=
  claim3_empty_behaviour (train ["a"] 5000 2) 4 (by decide)

/-- C4: when the pair counter is nonempty, the selected pair
(`stats.most_common(1)[0]`, modelled by `mostCommon1` over the
insertion-ordered counter built by `get_stats`) is an entry of the
counter, has maximal count, and every entry inserted before it has a
strictly smaller count — i.e. among tied maxima the first pair
encountered in the left-to-right corpus scan is selected. -/
theorem claim4_best_pair : ∀ (tws : List (List String))
    (x : (String × String) × Nat),
    mostCommon1 (get_stats tws) = some x →
    x ∈ get_stats tws ∧ (∀ q ∈ get_stats tws, q.2 ≤ x.2) ∧
      ∃ l₁ l₂, get_stats tws = l₁ ++ x :: l₂ ∧ ∀ q ∈ l₁, q.2 < x.2 :=
  fun tws x h => mostCommon1_spec (get_stats tws) x h

/-- C4, witness: in the corpus `[["a","b","c"]]` both pairs have count 1
and the first-encountered pair `("a","b")` is selected. -/
theorem claim4_best_pair_witness :
    ((("a", "b"), 1) : (String × String) × Nat) ∈ get_stats [["a", "b", "c"]] ∧
    (∀ q ∈ get_stats [["a", "b", "c"]], q.2 ≤ 1) ∧
    ∃ l₁ l₂, get_stats [["a", "b", "c"]] = l₁ ++ (("a", "b"), 1) :: l₂ ∧
      ∀ q ∈ l₁, q.2 < 1 :=
  claim4_best_pair [["a", "b", "c"]] (("a", "b"), 1) (by decide)

/-- C5, counterexample: training on the empty list of texts yields a
vocabulary holding only the four special tokens; the word-boundary
marker is NOT included, contradicting "always included". -/
theorem claim5_counterexample :
    (train ([] : List String) 5000 2).vocab =
      [(PAD, 0), (UNK, 1), (BOS, 2), (EOS, 3)] ∧
    lookupS (train ([] : List String) 5000 2).vocab WORD_END = none := by decide

/-- C5, amended: after training, the vocabulary starts with the four
special tokens at ids 0-3 followed by the distinct symbols of the
symbolized corpus sorted by code point (then any merge symbols); the
boundary marker is included whenever the text list is nonempty. -/
theorem claim5_vocab_structure (texts : List String) (limit minFreq : Nat)
    (h : texts ≠ []) :
    (∃ rest, (train texts limit minFreq).vocab =
      enumIds 0 ([PAD, UNK, BOS, EOS] ++ initSymbols texts) ++ rest) ∧
    (∀ s, s ∈ initSymbols texts ↔ ∃ w ∈ tokenizedWords texts, s ∈ w) ∧
    (initSymbols texts).Pairwise (fun a b => clLt a.data b.data = true) ∧
    WORD_END ∈ initSymbols texts :=
  ⟨train_vocab_shape texts limit minFreq,
   fun s => mem_initSymbols s texts,
   initSymbols_sorted texts,
   wordEnd_mem_initSymbols texts h⟩

/-- C5, witness: the amended statement at `train ["a"] 5000 2`. -/
theorem claim5_vocab_structure_witness :
    (∃ rest, (train ["a"] 5000 2).vocab =
      enumIds 0 ([PAD, UNK, BOS, EOS] ++ initSymbols ["a"]) ++ rest) ∧
    (∀ s, s ∈ initSymbols ["a"] ↔ ∃ w ∈ tokenizedWords ["a"], s ∈ w) ∧
    (initSymbols ["a"]).Pairwise (fun a b => clLt a.data b.data = true) ∧
    WORD_END ∈ initSymbols ["a"] :=
  claim5_vocab_structure ["a"] 5000 2 (by decide)

/-- C6: `merge_pair` scans each word left to right, merging exactly when
the two adjacent symbols equal the pair and then advancing two
positions; in particular merging `("a","a")` in `("a","a","a")` gives
`("aa","a")` and never `("a","aa")`. -/
theorem claim6_merge_nonoverlap :
    (∀ (a b x y : String) (rest : List String),
      mergeWord a b (x :: y :: rest) =
        if x = a ∧ y = b then (x ++ y) :: mergeWord a b rest
        else x :: mergeWord a b (y :: rest)) ∧
    merge_pair ("a", "a") [["a", "a", "a"]] = [["aa", "a"]] ∧
    merge_pair ("a", "a") [["a", "a", "a"]] ≠ [["a", "aa"]] :=
  ⟨fun a b x y rest => mergeWord_cons2 a b x y rest, by decide, by decide⟩

/-- C7: deserializing the serialized model record reproduces the merge
list in identical order, the identical symbol-to-id vocabulary, the
reconstructed reverse map, and the special-token list. -/
theorem claim7_persistence (T : BPETokenizer) :
    (load (save T)).merges = T.merges ∧ (load (save T)).vocab = T.vocab ∧
    (load (save T)).id_to_token = revMap T.vocab ∧
    (load (save T)).special_tokens = T.special_tokens :=
  ⟨rfl, rfl, rfl, rfl⟩

/-- C8: `normalize` is idempotent. -/
theorem claim8_normalize_idem (s : String) :
    normalize (normalize s) = normalize s :=
  normalize_idem_helper s

/-- C9: the training loop terminates within `totalSyms + 1` iterations:
with that much fuel it always returns a result, because whenever the
pair counter is nonempty the selected pair has count at least 1 and
merging it strictly decreases the total symbol count of the corpus. -/
theorem claim9_train_terminates :
    (∀ (limit minFreq : Nat) (tws : List (List String))
      (merges : List (String × String)) (vocab : List (String × Nat)),
      (trainLoopF limit minFreq (totalSyms tws + 1) tws merges vocab).isSome
        = true) ∧
    (∀ (tws : List (List String)) (x : (String × String) × Nat),
      mostCommon1 (get_stats tws) = some x →
      1 ≤ x.2 ∧ totalSyms (merge_pair x.1 tws) < totalSyms tws) := by
  constructor
  · intro limit minFreq tws merges vocab
    exact trainLoopF_isSome limit minFreq _ tws merges vocab (Nat.lt_succ_self _)
  · intro tws x h
    have hmem := (mostCommon1_spec (get_stats tws) x h).1
    constructor
    · exact get_stats_counts tws x hmem
    · obtain ⟨w, hw, hpw⟩ := get_stats_keys tws x.1 x.2 hmem
      exact totalSyms_merge_lt x.1 tws ⟨w, hw, hpw⟩

/-- C9, witness: on the corpus `[["a","b"]]` the selected pair
`("a","b")` has count 1 and merging shrinks the corpus from 2 symbols
to 1. -/
theorem claim9_train_terminates_witness :
    (trainLoopF 5000 2 (totalSyms [["a", "b"]] + 1) [["a", "b"]] [] []).isSome
      = true ∧
    (1 ≤ ((("a", "b"), 1) : (String × String) × Nat).2 ∧
      totalSyms (merge_pair ("a", "b") [["a", "b"]]) < totalSyms [["a", "b"]]) :=
  ⟨claim9_train_terminates.1 5000 2 [["a", "b"]] [] [],
   claim9_train_terminates.2 [["a", "b"]] (("a", "b"), 1) (by decide)⟩

/-- C10: `decode` renders ids missing from the id-to-symbol map as the
unknown token, which is skipped without touching the word buffer, so
dropping an unknown id leaves the output unchanged; a list of only
unknown ids decodes to `""`. (`decode` is a total function, so it never
fails on any id list.) -/
theorem claim10_decode_unknown (T : BPETokenizer) (i : Nat) (ids₁ ids₂ : List Nat)
    (hS : T.special_tokens = [PAD, UNK, BOS, EOS])
    (hI : lookupN T.id_to_token i = none) :
    decode T (ids₁ ++ i :: ids₂) = decode T (ids₁ ++ ids₂) ∧
    ((∀ j ∈ ids₁, lookupN T.id_to_token j = none) → decode T ids₁ = "") := by
  constructor
  · have hmain := decodeWords_skip_unk [PAD, UNK, BOS, EOS] (by decide) (by decide)
      (ids₁.map (fun j => (lookupN T.id_to_token j).getD UNK))
      (ids₂.map (fun j => (lookupN T.id_to_token j).getD UNK)) []
    show joinSp (decodeWords T.special_tokens
        ((ids₁ ++ i :: ids₂).map (fun j => (lookupN T.id_to_token j).getD UNK)) []) =
      joinSp (decodeWords T.special_tokens
        ((ids₁ ++ ids₂).map (fun j => (lookupN T.id_to_token j).getD UNK)) [])
    rw [List.map_append, List.map_append, List.map_cons, hI, Option.getD_none,
      hS, hmain]
  · intro hall
    show joinSp (decodeWords T.special_tokens
      (ids₁.map (fun j => (lookupN T.id_to_token j).getD UNK)) []) = ""
    rw [hS, decodeWords_all_special [PAD, UNK, BOS, EOS] _ [] (by
      intro s hs
      obtain ⟨j, hj, rfl⟩ := List.mem_map.mp hs
      rw [hall j hj]
      exact ⟨by decide, by decide⟩)]
    rfl

/-- C10, witness: dropping the unknown id 9 on a fresh tokenizer leaves
decoding unchanged, and an all-unknown list decodes to `""`. -/
theorem claim10_decode_unknown_witness :
    decode mkFresh ([5] ++ 9 :: [2]) = decode mkFresh ([5] ++ [2]) ∧
    ((∀ j ∈ [5], lookupN mkFresh.id_to_token j = none) →
      decode mkFresh [5] = "") :=
  claim10_decode_unknown mkFresh 9 [5] [2] (by decide) (by decide)

end BPE
